import Mathlib

/-!
# Verification of the retrieval subsystem

A shallow embedding, in Lean 4, of the retrieval core of the
mental-health RAG service (`src/services/retrieval_service.py`):
topic inference from query text, topic-boost reranking, top-k
truncation, and query-level result caching.

Modelling conventions:
* Python `float` similarity scores are modelled as `ℚ` (the properties
  at stake are order-theoretic and exact arithmetic on the clamp).
* Python `str` is modelled as Lean `String`; lowercasing uses the
  ASCII `Char.toLower`, and `strip` uses the ASCII whitespace set.
* `re.search` is an external library call; it is abstracted as an
  oracle `search : String → String → Bool` taking the pattern text and
  the subject text.  The pattern table itself is embedded literally.
* Document metadata is a string-keyed association list; the ranking
  code only ever reads the `"topic"` key, whose value is a string.
* The embedding provider and the similarity store are external
  collaborators; they are modelled as a `Backend` record of fallible
  functions (`Except String`), mirroring that only these calls can
  fail inside `retrieve`'s `try` block.
-/

/-- Retrieved document chunk (`Document` dataclass in the source). -/
structure Document where
  content : String
  metadata : List (String × String)
  score : ℚ
deriving DecidableEq

/-- A raw row returned by `Database.search_similar`.  The retrieval code
reads `row["content"]`, `row.get("metadata", {})` and
`row.get("score", 0.0)`; the optional fields model the `.get` defaults. -/
structure SearchRow where
  content : String
  metadata : Option (List (String × String))
  score : Option ℚ
deriving DecidableEq

/-- The configuration options consumed by the retrieval core
(`Settings` in `src/core/config.py`).  The pydantic field validators
constrain `RETRIEVAL_TOP_K ≥ 1`, `0 ≤ RETRIEVAL_THRESHOLD ≤ 1`,
`RETRIEVAL_CANDIDATE_MULTIPLIER ≥ 1` and
`0 ≤ TOPIC_BOOST_FACTOR ≤ 0.5`. -/
structure RetrievalSettings where
  RETRIEVAL_TOP_K : Nat
  RETRIEVAL_THRESHOLD : ℚ
  RETRIEVAL_CANDIDATE_MULTIPLIER : Nat
  TOPIC_BOOST_FACTOR : ℚ

/-- The regular-expression pattern table of `infer_topic_from_query`,
embedded literally (topic name, ordered list of pattern source texts). -/
def topicPatterns : List (String × List String) :=
  [ ("depression",
      [ "\\b(depress(ed|ion|ive)?|sad(ness)?|hopeless(ness)?|suicid(al|e)?)\\b"
      , "\\bfeeling down\\b"
      , "\\bno motivation\\b" ])
  , ("anxiety",
      [ "\\b(anxious|anxiety|anxiet(y|ies)|panic|worried|worry(ing)?)\\b"
      , "\\bpanic attack\\b"
      , "\\bfeeling nervous\\b" ])
  , ("stress",
      [ "\\b(stress(ed|ful)?|overwhelm(ed|ing)?|pressure|tense|tension)\\b"
      , "\\bstressed out\\b"
      , "\\btoo much\\b.*\\b(work|responsibilities)\\b" ])
  , ("breathing",
      [ "\\b(breath(e|ing)?|respiratory)\\b"
      , "\\bbreathing (exercise|technique)\\b"
      , "\\bcalm(ing)? breath\\b" ])
  , ("cbt",
      [ "\\b(cbt|cognitive behavioral|thought pattern|negative thought)\\b"
      , "\\bchanging thoughts\\b" ]) ]

/-- The names of the five topics, in table order. -/
def topicNames : List String := topicPatterns.map Prod.fst

/-- The per-topic scores computed by the loop of `infer_topic_from_query`:
for each topic of the table, the number of its patterns for which
`re.search(pattern, query.lower())` succeeds (each pattern contributes
at most 1, as `re.search` only reports existence of a match). -/
def scoredTopics (search : String → String → Bool) (query : String) :
    List (String × Nat) :=
  topicPatterns.map (fun tp => (tp.1, tp.2.countP (fun p => search p query.toLower)))

/-- `infer_topic_from_query`: keep the topics with positive score
(the `topic_scores` dict, in table insertion order), then
`max(topic_scores.items(), key=lambda x: x[1])` — a left fold that
replaces the current best only on a strictly larger score, so the
first maximal entry wins; `None` when no pattern matched. -/
def inferTopicFromQuery (search : String → String → Bool) (query : String) :
    Option String :=
  let positive := (scoredTopics search query).filter (fun tp => decide (0 < tp.2))
  match positive with
  | [] => none
  | x :: xs => some ((xs.foldl (fun best y => if best.2 < y.2 then y else best) x).1)

/-- The boost guard of `_apply_topic_boosting`:
`doc_topic = doc.metadata.get("topic")` followed by
`if doc_topic and doc_topic == query_topic` (a missing key is never
boosted; an empty string is falsy in Python). -/
def isMatch (queryTopic : String) (doc : Document) : Bool :=
  match doc.metadata.lookup "topic" with
  | none => false
  | some t => decide (t ≠ "" ∧ t = queryTopic)

/-- The per-document body of the boosting loop: a matching document is
rebuilt with `new_score = min(1.0, doc.score + boost_factor)`, a
non-matching one is rebuilt with its unchanged score. -/
def boostDoc (boostFactor : ℚ) (queryTopic : String) (doc : Document) : Document :=
  if isMatch queryTopic doc then
    { doc with score := min 1 (doc.score + boostFactor) }
  else
    doc

/-- The `boosted_docs` list built by the loop of `_apply_topic_boosting`
before the final sort (one output document per input document, in
input order). -/
def boostedList (boostFactor : ℚ) (queryTopic : String) (docs : List Document) :
    List Document :=
  docs.map (boostDoc boostFactor queryTopic)

/-- The order used by `boosted_docs.sort(key=lambda d: d.score, reverse=True)`:
`a` may precede `b` exactly when `b.score ≤ a.score`. -/
def scoreDesc : Document → Document → Prop := fun a b => b.score ≤ a.score

instance : DecidableRel scoreDesc :=
  fun a b => inferInstanceAs (Decidable (b.score ≤ a.score))

instance : IsTotal Document scoreDesc :=
  ⟨fun a b => le_total b.score a.score⟩

instance : IsTrans Document scoreDesc :=
  ⟨fun _ _ _ hab hbc => le_trans hbc hab⟩

/-- `RetrievalService._apply_topic_boosting`: no-op when the topic is
falsy (`None` or empty) or the document list is empty; otherwise boost
every matching document and stable-sort by score descending.  Python's
`list.sort` is a stable sort; a stable sort's output is uniquely
determined by the key order and the input order, and the stable
`insertionSort scoreDesc` realizes it. -/
def applyTopicBoosting (boostFactor : ℚ) (queryTopic : Option String)
    (documents : List Document) : List Document :=
  match queryTopic with
  | none => documents
  | some t =>
    if t = "" ∨ documents = [] then documents
    else (boostedList boostFactor t documents).insertionSort scoreDesc

/-- The ASCII whitespace characters removed by Python's `str.strip()`. -/
def isPyWs (c : Char) : Bool :=
  c = ' ' || c = '\t' || c = '\n' || c = '\r' || c = '\x0b' || c = '\x0c'

/-- `str.strip()` on a list of characters: drop leading whitespace, then
drop trailing whitespace. -/
def stripChars (l : List Char) : List Char :=
  ((l.dropWhile isPyWs).reverse.dropWhile isPyWs).reverse

/-- The cache key computation of `retrieve`: `query.lower().strip()`. -/
def normalizeKey (query : String) : String :=
  ⟨stripChars (query.data.map Char.toLower)⟩

/-- The in-process query cache `self._cache`, modelled as an association
list; assignment prepends, lookup takes the most recent binding. -/
abbrev Cache : Type := List (String × List Document)

/-- `self._cache[key] = value`. -/
def cacheInsert (c : Cache) (key : String) (value : List Document) : Cache :=
  (key, value) :: c

/-- `self._cache.get(key)` / `key in self._cache`. -/
def cacheLookup (c : Cache) (key : String) : Option (List Document) :=
  c.lookup key

/-- The two external collaborators whose calls can fail inside
`retrieve`: `embedding_service.embed_single` and
`database.search_similar` (arguments: embedding, `top_k`, `threshold`). -/
structure Backend where
  embedSingle : String → Except String (List ℚ)
  searchSimilar : List ℚ → Nat → ℚ → Except String (List SearchRow)

/-- The embedding call followed by the similarity-store call, with
error propagation: the combined external step of `retrieve`. -/
def backendResults (backend : Backend) (query : String)
    (candidateCount : Nat) (threshold : ℚ) : Except String (List SearchRow) :=
  match backend.embedSingle query with
  | Except.error e => Except.error e
  | Except.ok emb => backend.searchSimilar emb candidateCount threshold

/-- Conversion of a raw similarity row to a `Document`
(`content=result["content"], metadata=result.get("metadata", {}),
score=result.get("score", 0.0)`). -/
def rowToDoc (r : SearchRow) : Document :=
  ⟨r.content, r.metadata.getD [], r.score.getD 0⟩

/-- The `documents` list of `retrieve` before boosting. -/
def candidateDocuments (rows : List SearchRow) : List Document :=
  rows.map rowToDoc

/-- The candidate sequence of `retrieve` after the optional reranking
step (`if query_topic: documents = self._apply_topic_boosting(...)`;
an inferred falsy topic skips the call). -/
def rerankedCandidates (s : RetrievalSettings) (search : String → String → Bool)
    (query : String) (rows : List SearchRow) : List Document :=
  let documents := candidateDocuments rows
  match inferTopicFromQuery search query with
  | none => documents
  | some t =>
    if t = "" then documents
    else applyTopicBoosting s.TOPIC_BOOST_FACTOR (some t) documents

/-- The observable outcome of one `retrieve` call: the returned value or
raised `RetrievalException` message, the cache afterwards, and whether
the external embedding/similarity calls were issued. -/
structure RetrieveResult where
  result : Except String (List Document)
  cache : Cache
  backendCalled : Bool

/-- `RetrievalService.retrieve`: check the cache under the normalized
key and return immediately on a hit; on a miss, infer the topic, call
the backend (any failure raises `RetrievalException("Retrieval failed: ...")`
and caches nothing), convert rows to documents, rerank when a topic was
inferred, truncate to `RETRIEVAL_TOP_K`, store in the cache, return. -/
def retrieve (s : RetrievalSettings) (search : String → String → Bool)
    (backend : Backend) (cache : Cache) (query : String) : RetrieveResult :=
  let cacheKey := normalizeKey query
  match cacheLookup cache cacheKey with
  | some docs => ⟨Except.ok docs, cache, false⟩
  | none =>
    let candidateCount := s.RETRIEVAL_TOP_K * s.RETRIEVAL_CANDIDATE_MULTIPLIER
    match backendResults backend query candidateCount s.RETRIEVAL_THRESHOLD with
    | Except.error e => ⟨Except.error ("Retrieval failed: " ++ e), cache, true⟩
    | Except.ok rows =>
      let finalDocuments :=
        (rerankedCandidates s search query rows).take s.RETRIEVAL_TOP_K
      ⟨Except.ok finalDocuments, cacheInsert cache cacheKey finalDocuments, true⟩

/-! ## Concrete instances used to exercise the definitions -/

/-- The default configuration values of `Settings`. -/
def testSettings : RetrievalSettings :=
  { RETRIEVAL_TOP_K := 3
  , RETRIEVAL_THRESHOLD := 0.4
  , RETRIEVAL_CANDIDATE_MULTIPLIER := 3
  , TOPIC_BOOST_FACTOR := 0.15 }

/-- A backend whose similarity store returns no candidates. -/
def emptyBackend : Backend :=
  { embedSingle := fun _ => Except.ok []
  , searchSimilar := fun _ _ _ => Except.ok [] }

/-- A backend whose embedding call fails. -/
def failBackend : Backend :=
  { embedSingle := fun _ => Except.error "boom"
  , searchSimilar := fun _ _ _ => Except.ok [] }

/-- Nine similarity rows with strictly decreasing scores. -/
def nineRows : List SearchRow :=
  [ ⟨"r1", none, some 0.9⟩, ⟨"r2", none, some 0.85⟩, ⟨"r3", none, some 0.8⟩
  , ⟨"r4", none, some 0.75⟩, ⟨"r5", none, some 0.7⟩, ⟨"r6", none, some 0.65⟩
  , ⟨"r7", none, some 0.6⟩, ⟨"r8", none, some 0.55⟩, ⟨"r9", none, some 0.5⟩ ]

/-- A backend whose similarity store returns the nine rows above. -/
def nineBackend : Backend :=
  { embedSingle := fun _ => Except.ok []
  , searchSimilar := fun _ _ _ => Except.ok nineRows }

/-! ## Helper lemmas about the reranker -/

theorem boostDoc_content (b : ℚ) (t : String) (d : Document) :
    (boostDoc b t d).content = d.content := by
  unfold boostDoc; split <;> rfl

theorem boostDoc_metadata (b : ℚ) (t : String) (d : Document) :
    (boostDoc b t d).metadata = d.metadata := by
  unfold boostDoc; split <;> rfl

theorem boostDoc_of_not_match (b : ℚ) (t : String) (d : Document)
    (h : isMatch t d = false) : boostDoc b t d = d := by
  unfold boostDoc
  rw [if_neg]
  simp [h]

theorem isMatch_empty (d : Document) : isMatch "" d = false := by
  unfold isMatch
  rcases h : d.metadata.lookup "topic" with _ | t
  · rfl
  · simp

theorem boostedList_empty_topic (b : ℚ) (docs : List Document) :
    boostedList b "" docs = docs := by
  unfold boostedList
  have h : ∀ d ∈ docs, boostDoc b "" d = id d := fun d _ =>
    boostDoc_of_not_match b "" d (isMatch_empty d)
  rw [List.map_congr_left h, List.map_id]

/-! ## Claim theorems: the reranker -/

/-- C5: reranking with topic `none`, or with an empty input sequence,
returns the input sequence unchanged — identical values in identical
order. -/
theorem rerank_noop_on_none_or_empty (b : ℚ) :
    (∀ docs : List Document, applyTopicBoosting b none docs = docs) ∧
    (∀ t : Option String, applyTopicBoosting b t [] = []) := by
  constructor
  · intro docs; rfl
  · intro t
    cases t with
    | none => rfl
    | some t => simp [applyTopicBoosting]

/-- C3: every document boosted by reranking gets score
`min(1.0, score + BOOST_FACTOR)`, which never exceeds 1.0; the witness
instantiates the spec's example, a document with score 0.95 and boost
factor 0.15 landing on exactly 1.0. -/
theorem boosted_score_clamped (b : ℚ) (t : String) (d : Document)
    (h : isMatch t d = true) :
    (boostDoc b t d).score = min 1 (d.score + b) ∧ (boostDoc b t d).score ≤ 1 := by
  constructor
  · rw [boostDoc, if_pos h]
  · rw [boostDoc, if_pos h]
    exact min_le_left 1 (d.score + b)

theorem boosted_score_clamped_witness :
    isMatch "stress" (Document.mk "relax" [("topic", "stress")] 0.95) = true ∧
    (boostDoc 0.15 "stress" (Document.mk "relax" [("topic", "stress")] 0.95)).score = 1 := by
  have h : isMatch "stress" (Document.mk "relax" [("topic", "stress")] 0.95) = true := by
    decide
  refine ⟨h, ?_⟩
  rw [(boosted_score_clamped 0.15 "stress"
    (Document.mk "relax" [("topic", "stress")] 0.95) h).1]
  norm_num

/-- C2: for every document sequence (scores within the data model's
[0,1] bound) and topic, with the configured nonnegative boost factor:
each topic-matching document's post-rerank score is at least its
pre-rerank score, each non-matching document (including one whose
metadata lacks the `topic` key) keeps its score unchanged, and the
rerank output is a permutation of this per-document boosted list. -/
theorem rerank_boost_monotone (b : ℚ) (t : String) (docs : List Document)
    (hb : 0 ≤ b) (hs : ∀ d ∈ docs, d.score ≤ 1)
    (i : Nat) (hi : i < docs.length) (hi2 : i < (boostedList b t docs).length) :
    (isMatch t (docs.get ⟨i, hi⟩) = true →
      (docs.get ⟨i, hi⟩).score ≤ ((boostedList b t docs).get ⟨i, hi2⟩).score) ∧
    (isMatch t (docs.get ⟨i, hi⟩) = false →
      ((boostedList b t docs).get ⟨i, hi2⟩).score = (docs.get ⟨i, hi⟩).score) ∧
    (applyTopicBoosting b (some t) docs).Perm (boostedList b t docs) := by
  have hget : (boostedList b t docs).get ⟨i, hi2⟩ = boostDoc b t (docs.get ⟨i, hi⟩) := by
    simp [boostedList, List.get_eq_getElem, List.getElem_map]
  refine ⟨?_, ?_, ?_⟩
  · intro h
    rw [hget, boostDoc, if_pos h]
    exact le_min (hs _ (by simp [List.get_eq_getElem]))
      (le_add_of_nonneg_right hb)
  · intro h
    rw [hget, boostDoc_of_not_match b t _ h]
  · rw [applyTopicBoosting]
    by_cases hg : t = "" ∨ docs = []
    · rw [if_pos hg]
      rcases hg with hg | hg
      · rw [hg, boostedList_empty_topic]
      · rw [hg]
        simp [boostedList]
    · rw [if_neg hg]
      exact List.perm_insertionSort scoreDesc (boostedList b t docs)

theorem rerank_boost_monotone_witness :
    ((0 : ℚ) ≤ 0.15) ∧
    ((List.get [Document.mk "a" [("topic", "stress")] 0.5,
        Document.mk "b" [] 0.7] ⟨0, by norm_num⟩).score ≤
      ((boostedList 0.15 "stress" [Document.mk "a" [("topic", "stress")] 0.5,
        Document.mk "b" [] 0.7]).get ⟨0, by norm_num [boostedList]⟩).score) := by
  have hs : ∀ d ∈ [Document.mk "a" [("topic", "stress")] 0.5,
      Document.mk "b" [] 0.7], d.score ≤ 1 := by
    intro d hd
    fin_cases hd <;> norm_num
  have h := rerank_boost_monotone 0.15 "stress"
    [Document.mk "a" [("topic", "stress")] 0.5, Document.mk "b" [] 0.7]
    (by norm_num) hs 0 (by norm_num) (by norm_num [boostedList])
  exact ⟨by norm_num, h.1 (by decide)⟩

/-- C10: reranking is a frame operation on documents: the boosted list
has the same length as the input, its `i`-th entry carries exactly the
content and metadata of the `i`-th input document (only the score may
differ), and the final rerank output is, up to reordering, the same
multiset of content/metadata pairs as the input — nothing is added,
dropped or rewritten. -/
theorem rerank_frame (b : ℚ) (docs : List Document) :
    (∀ t : String, (boostedList b t docs).length = docs.length) ∧
    (∀ (t : String) (i : Nat) (hi : i < docs.length)
        (hi2 : i < (boostedList b t docs).length),
      ((boostedList b t docs).get ⟨i, hi2⟩).content = (docs.get ⟨i, hi⟩).content ∧
      ((boostedList b t docs).get ⟨i, hi2⟩).metadata = (docs.get ⟨i, hi⟩).metadata) ∧
    (∀ qt : Option String,
      (applyTopicBoosting b qt docs).length = docs.length ∧
      ((applyTopicBoosting b qt docs).map (fun d => (d.content, d.metadata))).Perm
        (docs.map (fun d => (d.content, d.metadata)))) := by
  refine ⟨?_, ?_, ?_⟩
  · intro t
    simp [boostedList]
  · intro t i hi hi2
    have hget : (boostedList b t docs).get ⟨i, hi2⟩ = boostDoc b t (docs.get ⟨i, hi⟩) := by
      simp [boostedList, List.get_eq_getElem, List.getElem_map]
    rw [hget, boostDoc_content, boostDoc_metadata]
    exact ⟨rfl, rfl⟩
  · intro qt
    cases qt with
    | none => exact ⟨rfl, List.Perm.refl _⟩
    | some t =>
      simp only [applyTopicBoosting]
      by_cases hg : t = "" ∨ docs = []
      · rw [if_pos hg]
        exact ⟨rfl, List.Perm.refl _⟩
      · rw [if_neg hg]
        have hperm := List.perm_insertionSort scoreDesc (boostedList b t docs)
        have h2 : (boostedList b t docs).map (fun d => (d.content, d.metadata)) =
            docs.map (fun d => (d.content, d.metadata)) := by
          rw [boostedList, List.map_map]
          exact List.map_congr_left (fun d _ => by
            simp [Function.comp, boostDoc_content, boostDoc_metadata])
        constructor
        · rw [hperm.length_eq]
          simp [boostedList]
        · have h1 := hperm.map (fun d => (d.content, d.metadata))
          rw [h2] at h1
          exact h1

theorem rerank_frame_witness :
    ((boostedList 0.15 "stress" [Document.mk "a" [("k", "v")] 0.5]).get
      ⟨0, by norm_num [boostedList]⟩).metadata =
    (([Document.mk "a" [("k", "v")] 0.5] : List Document).get
      ⟨0, by norm_num⟩).metadata := by
  exact ((rerank_frame 0.15 [Document.mk "a" [("k", "v")] 0.5]).2.1 "stress" 0
    (by norm_num) (by norm_num [boostedList])).2

/-- C4: for every document sequence and every topic of the closed topic
set, the rerank output is sorted by boosted score in descending order,
and it is stable: for each score value, the documents carrying that
boosted score appear in the output in exactly the order in which the
boosting loop produced them from the input sequence. -/
theorem rerank_sorted_stable (b : ℚ) (t : String) (docs : List Document)
    (ht : t ∈ topicNames) :
    List.Sorted scoreDesc (applyTopicBoosting b (some t) docs) ∧
    ∀ c : ℚ,
      (applyTopicBoosting b (some t) docs).filter (fun d => decide (d.score = c)) =
        (boostedList b t docs).filter (fun d => decide (d.score = c)) := by
  have ht' : t ≠ "" := by
    intro h
    subst h
    revert ht
    decide
  by_cases hd : docs = []
  · subst hd
    constructor
    · simp [applyTopicBoosting]
    · intro c
      simp [applyTopicBoosting, boostedList]
  · have hg : ¬ (t = "" ∨ docs = []) := by
      simp [ht', hd]
    constructor
    · simp only [applyTopicBoosting]
      rw [if_neg hg]
      exact List.sorted_insertionSort scoreDesc (boostedList b t docs)
    · intro c
      simp only [applyTopicBoosting]
      rw [if_neg hg]
      have hpair : ((boostedList b t docs).filter
          (fun d => decide (d.score = c))).Pairwise scoreDesc := by
        apply List.pairwise_of_forall_mem_list
        intro x hx y hy
        have hx' : x.score = c := of_decide_eq_true (List.mem_filter.mp hx).2
        have hy' : y.score = c := of_decide_eq_true (List.mem_filter.mp hy).2
        show y.score ≤ x.score
        rw [hx', hy']
      have hsub := List.filter_sublist (p := fun d => decide (d.score = c))
        (boostedList b t docs)
      have h2 := List.sublist_insertionSort hpair hsub
      have h3 := (List.perm_insertionSort scoreDesc (boostedList b t docs)).filter
        (fun d => decide (d.score = c))
      have h4 := h2.filter (fun d => decide (d.score = c))
      have h5 : ((boostedList b t docs).filter (fun d => decide (d.score = c))).filter
          (fun d => decide (d.score = c)) =
          (boostedList b t docs).filter (fun d => decide (d.score = c)) := by
        simp [List.filter_filter]
      rw [h5] at h4
      exact (h4.eq_of_length h3.length_eq.symm).symm

theorem rerank_sorted_stable_witness :
    ("stress" ∈ topicNames) ∧
    List.Sorted scoreDesc (applyTopicBoosting 0.15 (some "stress")
      [Document.mk "a" [] 0.9, Document.mk "b" [("topic", "stress")] 0.7]) := by
  exact ⟨by decide, (rerank_sorted_stable 0.15 "stress"
    [Document.mk "a" [] 0.9, Document.mk "b" [("topic", "stress")] 0.7]
    (by decide)).1⟩

/-- C6: reranking is idempotent in ordering: if a document sequence is
already arranged so that its final post-rerank (boosted) scores are in
descending order, then applying rerank with the same topic returns the
boosted list itself — the order of the documents does not change. -/
theorem rerank_order_idempotent (b : ℚ) (t : String) (docs : List Document)
    (ht : t ∈ topicNames)
    (hsorted : List.Sorted scoreDesc (boostedList b t docs)) :
    applyTopicBoosting b (some t) docs = boostedList b t docs ∧
    (applyTopicBoosting b (some t) docs).map (fun d => (d.content, d.metadata)) =
      docs.map (fun d => (d.content, d.metadata)) := by
  have ht' : t ≠ "" := by
    intro h
    subst h
    revert ht
    decide
  have hmain : applyTopicBoosting b (some t) docs = boostedList b t docs := by
    by_cases hd : docs = []
    · subst hd
      simp [applyTopicBoosting, boostedList]
    · have hg : ¬ (t = "" ∨ docs = []) := by
        simp [ht', hd]
      simp only [applyTopicBoosting]
      rw [if_neg hg]
      exact List.Sorted.insertionSort_eq hsorted
  refine ⟨hmain, ?_⟩
  rw [hmain, boostedList, List.map_map]
  exact List.map_congr_left (fun d _ => by
    simp [Function.comp, boostDoc_content, boostDoc_metadata])

theorem rerank_order_idempotent_witness :
    applyTopicBoosting 0.15 (some "stress")
      [Document.mk "a" [("topic", "stress")] 0.8, Document.mk "b" [] 0.9] =
    boostedList 0.15 "stress"
      [Document.mk "a" [("topic", "stress")] 0.8, Document.mk "b" [] 0.9] := by
  have hsorted : List.Sorted scoreDesc (boostedList 0.15 "stress"
      [Document.mk "a" [("topic", "stress")] 0.8, Document.mk "b" [] 0.9]) := by
    norm_num [boostedList, boostDoc, isMatch, scoreDesc, List.sorted_cons,
      min_def, List.lookup]
    rw [if_neg (by decide : ¬ ("stress" = ""))]
    norm_num
  exact (rerank_order_idempotent 0.15 "stress"
    [Document.mk "a" [("topic", "stress")] 0.8, Document.mk "b" [] 0.9]
    (by decide) hsorted).1

/-! ## Helper lemmas about the topic-score maximum -/

/-- Python's `max(items, key=...)` over `x :: xs` — a left fold replacing
the current best only on a strictly greater key — returns an element of
the list such that everything strictly before its (first) position has a
strictly smaller key and everything after it has a key no larger. -/
theorem foldl_best_split (xs : List (String × Nat)) :
    ∀ x : String × Nat,
      ∃ l1 l2,
        x :: xs = l1 ++ (xs.foldl (fun best y => if best.2 < y.2 then y else best) x) :: l2 ∧
        (∀ z ∈ l1, z.2 < (xs.foldl (fun best y => if best.2 < y.2 then y else best) x).2) ∧
        (∀ z ∈ l2, z.2 ≤ (xs.foldl (fun best y => if best.2 < y.2 then y else best) x).2) := by
  induction xs with
  | nil =>
    intro x
    exact ⟨[], [], rfl, by simp, by simp⟩
  | cons y ys ih =>
    intro x
    simp only [List.foldl_cons]
    by_cases hxy : x.2 < y.2
    · simp only [if_pos hxy]
      obtain ⟨l1, l2, heq, h1, h2⟩ := ih y
      cases l1 with
      | nil =>
        simp only [List.nil_append] at heq
        refine ⟨[x], l2, ?_, ?_, h2⟩
        · simpa only [List.singleton_append] using congrArg (fun l => x :: l) heq
        · intro z hz
          simp only [List.mem_singleton] at hz
          subst hz
          have hy : y = ys.foldl (fun best y => if best.2 < y.2 then y else best) y := by
            injection heq with hh _
          exact hy ▸ hxy
      | cons a l1t =>
        simp only [List.cons_append] at heq
        injection heq with ha hl
        subst ha
        have hyr := h1 y (List.mem_cons_self y l1t)
        refine ⟨x :: y :: l1t, l2, ?_, ?_, h2⟩
        · simp only [List.cons_append]
          exact congrArg (fun l => x :: y :: l) hl
        · intro z hz
          rcases List.mem_cons.mp hz with rfl | hz'
          · exact lt_trans hxy hyr
          · exact h1 z hz'
    · simp only [if_neg hxy]
      obtain ⟨l1, l2, heq, h1, h2⟩ := ih x
      cases l1 with
      | nil =>
        simp only [List.nil_append] at heq
        injection heq with hx hl
        refine ⟨[], y :: l2, ?_, by simp, ?_⟩
        · simp only [List.nil_append]
          rw [← hx, ← hl]
        · intro z hz
          rcases List.mem_cons.mp hz with rfl | hz'
          · exact hx ▸ (Nat.not_lt.mp hxy)
          · exact h2 z hz'
      | cons a l1t =>
        simp only [List.cons_append] at heq
        injection heq with ha hl
        subst ha
        have hxr := h1 x (List.mem_cons_self x l1t)
        refine ⟨x :: y :: l1t, l2, ?_, ?_, h2⟩
        · simp only [List.cons_append]
          exact congrArg (fun l => x :: y :: l) hl
        · intro z hz
          rcases List.mem_cons.mp hz with rfl | hz'
          · exact hxr
          · rcases List.mem_cons.mp hz' with rfl | hz''
            · exact lt_of_le_of_lt (Nat.not_lt.mp hxy) hxr
            · exact h1 z (List.mem_cons_of_mem x hz'')

/-- Decomposing a list along a split of its filtered image: if
`l.filter p = l1 ++ x :: l2`, the occurrence of `x` splits `l` itself
into a part filtering to `l1` and a part filtering to `l2`. -/
theorem filter_split {α : Type} (p : α → Bool) :
    ∀ (l l1 : List α) (x : α) (l2 : List α),
      l.filter p = l1 ++ x :: l2 →
      ∃ m1 m2, l = m1 ++ x :: m2 ∧ m1.filter p = l1 ∧ m2.filter p = l2 := by
  intro l
  induction l with
  | nil =>
    intro l1 x l2 h
    exact absurd h (by simp)
  | cons a t ih =>
    intro l1 x l2 h
    by_cases hp : p a
    · rw [List.filter_cons_of_pos hp] at h
      cases l1 with
      | nil =>
        simp only [List.nil_append] at h
        injection h with h1 h2
        subst h1
        exact ⟨[], t, rfl, rfl, h2⟩
      | cons b l1t =>
        simp only [List.cons_append] at h
        injection h with h1 h2
        subst h1
        obtain ⟨m1, m2, hm, hm1, hm2⟩ := ih l1t x l2 h2
        refine ⟨a :: m1, m2, ?_, ?_, hm2⟩
        · simp only [List.cons_append]
          exact congrArg (fun l => a :: l) hm
        · rw [List.filter_cons_of_pos hp, hm1]
    · rw [List.filter_cons_of_neg hp] at h
      obtain ⟨m1, m2, hm, hm1, hm2⟩ := ih l1 x l2 h
      refine ⟨a :: m1, m2, ?_, ?_, hm2⟩
      · simp only [List.cons_append]
        exact congrArg (fun l => a :: l) hm
      · rw [List.filter_cons_of_neg hp, hm1]

/-! ## Claim theorems: topic inference -/

/-- C1: for every search oracle and query, `infer_topic_from_query`
scores exactly the five topics of the fixed table, each score being the
count of distinct patterns matching the lowercased query; it returns
`none` precisely when no pattern matches; and when it returns a topic,
that topic sits in the scored table with a positive score, every topic
strictly earlier in insertion order scores strictly less (ties are won
by first insertion order), and every later topic scores no more. -/
theorem infer_topic_spec (search : String → String → Bool) (q : String) :
    ((scoredTopics search q).map Prod.fst = topicNames) ∧
    (inferTopicFromQuery search q = none ↔ ∀ tp ∈ scoredTopics search q, tp.2 = 0) ∧
    (∀ t : String, inferTopicFromQuery search q = some t →
      ∃ (n : Nat) (l1 l2 : List (String × Nat)),
        scoredTopics search q = l1 ++ (t, n) :: l2 ∧ 0 < n ∧
        (∀ tp ∈ l1, tp.2 < n) ∧ (∀ tp ∈ l2, tp.2 ≤ n)) := by
  refine ⟨rfl, ?_, ?_⟩
  · constructor
    · intro h tp htp
      rcases hft : (scoredTopics search q).filter (fun tp => decide (0 < tp.2)) with
        _ | ⟨x, xs⟩
      · have := List.filter_eq_nil_iff.mp hft tp htp
        simp only [decide_eq_true_eq] at this
        omega
      · exfalso
        simp [inferTopicFromQuery, hft] at h
    · intro hall
      have hft : (scoredTopics search q).filter (fun tp => decide (0 < tp.2)) = [] := by
        apply List.filter_eq_nil_iff.mpr
        intro tp htp
        simp [hall tp htp]
      simp [inferTopicFromQuery, hft]
  · intro t hsome
    rcases hft : (scoredTopics search q).filter (fun tp => decide (0 < tp.2)) with
      _ | ⟨x, xs⟩
    · simp [inferTopicFromQuery, hft] at hsome
    · have hsome' :
          (xs.foldl (fun best y => if best.2 < y.2 then y else best) x).1 = t := by
        simp only [inferTopicFromQuery, hft, Option.some.injEq] at hsome
        exact hsome
      obtain ⟨l1, l2, heq, h1, h2⟩ := foldl_best_split xs x
      have hfeq : (scoredTopics search q).filter (fun tp => decide (0 < tp.2)) =
          l1 ++ (xs.foldl (fun best y => if best.2 < y.2 then y else best) x) :: l2 :=
        hft.trans heq
      have hrmem : (xs.foldl (fun best y => if best.2 < y.2 then y else best) x) ∈
          (scoredTopics search q).filter (fun tp => decide (0 < tp.2)) := by
        rw [hfeq]
        exact List.mem_append_right l1 (List.mem_cons_self _ _)
      have hrpos : 0 < (xs.foldl (fun best y => if best.2 < y.2 then y else best) x).2 := by
        have hmem := (List.mem_filter.mp hrmem).2
        simpa using hmem
      obtain ⟨m1, m2, hm, hm1, hm2⟩ := filter_split _ _ _ _ _ hfeq
      refine ⟨(xs.foldl (fun best y => if best.2 < y.2 then y else best) x).2,
        m1, m2, ?_, hrpos, ?_, ?_⟩
      · have hpair : (t, (xs.foldl (fun best y => if best.2 < y.2 then y else best) x).2) =
            xs.foldl (fun best y => if best.2 < y.2 then y else best) x := by
          rw [← hsome']
        rw [hpair]
        exact hm
      · intro tp htp
        by_cases hp : (0 : Nat) < tp.2
        · have htpf : tp ∈ m1.filter (fun tp => decide (0 < tp.2)) :=
            List.mem_filter.mpr ⟨htp, by simpa⟩
          rw [hm1] at htpf
          exact h1 tp htpf
        · omega
      · intro tp htp
        by_cases hp : (0 : Nat) < tp.2
        · have htpf : tp ∈ m2.filter (fun tp => decide (0 < tp.2)) :=
            List.mem_filter.mpr ⟨htp, by simpa⟩
          rw [hm2] at htpf
          exact h2 tp htpf
        · omega

theorem infer_topic_spec_witness :
    inferTopicFromQuery (fun _ _ => false) "hello" = none := by
  exact (infer_topic_spec (fun _ _ => false) "hello").2.1.mpr (by decide)

/-! ## Helper lemmas about key normalization -/

theorem toLower_toLower (c : Char) : c.toLower.toLower = c.toLower := by
  by_cases h : c.toNat ≥ 65 ∧ c.toNat ≤ 90
  · have hc : c.toLower = Char.ofNat (c.toNat + 32) := by
      rw [Char.toLower, if_pos h]
    rw [hc]
    obtain ⟨h1, h2⟩ := h
    generalize c.toNat = n at h1 h2 ⊢
    interval_cases n <;> decide
  · have hc : c.toLower = c := by
      rw [Char.toLower, if_neg h]
    rw [hc]
    exact hc

theorem toLower_of_ws (c : Char) (h : isPyWs c = true) : c.toLower = c := by
  simp only [isPyWs, Bool.or_eq_true, decide_eq_true_eq] at h
  rcases h with ((((h | h) | h) | h) | h) | h <;> subst h <;> decide

theorem isPyWs_toLower (c : Char) : isPyWs c.toLower = isPyWs c := by
  by_cases h : isPyWs c = true
  · rw [toLower_of_ws c h]
  · by_cases h2 : c.toNat ≥ 65 ∧ c.toNat ≤ 90
    · rw [Char.toLower, if_pos h2]
      obtain ⟨h1, h3⟩ := h2
      generalize c.toNat = n at h1 h3
      have hws : ∀ m, 65 ≤ m → m ≤ 90 → isPyWs (Char.ofNat (m + 32)) = false := by
        intro m hm1 hm2
        interval_cases m <;> decide
      rw [hws n h1 h3]
      simp only [Bool.not_eq_true] at h
      rw [h]
    · rw [Char.toLower, if_neg h2]

theorem dropWhile_append_left {α : Type} (p : α → Bool) (w l : List α)
    (hw : ∀ c ∈ w, p c = true) : (w ++ l).dropWhile p = l.dropWhile p := by
  induction w with
  | nil => rfl
  | cons a t ih =>
    rw [List.cons_append, List.dropWhile_cons, if_pos (hw a (List.mem_cons_self a t))]
    exact ih (fun c hc => hw c (List.mem_cons_of_mem a hc))

theorem dropWhile_idem {α : Type} (p : α → Bool) (l : List α) :
    (l.dropWhile p).dropWhile p = l.dropWhile p := by
  induction l with
  | nil => rfl
  | cons a t ih =>
    rw [List.dropWhile_cons]
    by_cases h : p a = true
    · rw [if_pos h]
      exact ih
    · rw [if_neg h, List.dropWhile_cons, if_neg h]

theorem dropWhile_head_false {α : Type} (p : α → Bool) (l : List α) (a : α) (t : List α)
    (h : l.dropWhile p = a :: t) : p a = false := by
  induction l with
  | nil => exact absurd h (by simp)
  | cons b s ih =>
    rw [List.dropWhile_cons] at h
    by_cases hp : p b = true
    · rw [if_pos hp] at h
      exact ih h
    · rw [if_neg hp] at h
      injection h with h1 _
      subst h1
      simpa using hp

theorem dropWhile_append_of_ne_nil {α : Type} (p : α → Bool) (l w : List α)
    (h : l.dropWhile p ≠ []) : (l ++ w).dropWhile p = l.dropWhile p ++ w := by
  induction l with
  | nil => exact absurd rfl h
  | cons a t ih =>
    by_cases hp : p a = true
    · have ht : t.dropWhile p ≠ [] := by
        rw [List.dropWhile_cons, if_pos hp] at h
        exact h
      rw [List.cons_append, List.dropWhile_cons, if_pos hp,
        List.dropWhile_cons, if_pos hp]
      exact ih ht
    · rw [List.cons_append, List.dropWhile_cons, if_neg hp,
        List.dropWhile_cons, if_neg hp, List.cons_append]

theorem stripChars_ws_left (w l : List Char) (hw : ∀ c ∈ w, isPyWs c = true) :
    stripChars (w ++ l) = stripChars l := by
  unfold stripChars
  rw [dropWhile_append_left isPyWs w l hw]

theorem stripChars_ws_right (l w : List Char) (hw : ∀ c ∈ w, isPyWs c = true) :
    stripChars (l ++ w) = stripChars l := by
  unfold stripChars
  rcases hd : l.dropWhile isPyWs with _ | ⟨a, t⟩
  · have hl : ∀ c ∈ l, isPyWs c = true := List.dropWhile_eq_nil_iff.mp hd
    have h1 : (l ++ w).dropWhile isPyWs = [] := by
      apply List.dropWhile_eq_nil_iff.mpr
      intro c hc
      rcases List.mem_append.mp hc with hc' | hc'
      · exact hl c hc'
      · exact hw c hc'
    rw [h1]
  · have hne : l.dropWhile isPyWs ≠ [] := by
      rw [hd]
      exact List.cons_ne_nil a t
    rw [dropWhile_append_of_ne_nil isPyWs l w hne, List.reverse_append,
      dropWhile_append_left isPyWs w.reverse (l.dropWhile isPyWs).reverse
        (fun c hc => hw c (List.mem_reverse.mp hc)), hd]

theorem stripChars_idem (l : List Char) : stripChars (stripChars l) = stripChars l := by
  rcases hd : l.dropWhile isPyWs with _ | ⟨a, t⟩
  · have h0 : stripChars l = [] := by
      unfold stripChars
      rw [hd]
      simp
    rw [h0]
    rfl
  · have ha : isPyWs a = false := dropWhile_head_false isPyWs l a t hd
    have hu : stripChars l = ((a :: t).reverse.dropWhile isPyWs).reverse := by
      unfold stripChars
      rw [hd]
    have hdrop_rev : (stripChars l).reverse.dropWhile isPyWs = (stripChars l).reverse := by
      rw [hu, List.reverse_reverse]
      exact dropWhile_idem isPyWs (a :: t).reverse
    have hpre : ∃ rest, a :: t = stripChars l ++ rest := by
      obtain ⟨pre, hp⟩ := List.dropWhile_suffix (l := (a :: t).reverse) isPyWs
      refine ⟨pre.reverse, ?_⟩
      rw [hu, ← List.reverse_append, hp, List.reverse_reverse]
    have hdrop : (stripChars l).dropWhile isPyWs = stripChars l := by
      rcases hs : stripChars l with _ | ⟨b, s2⟩
      · rfl
      · obtain ⟨rest, hrest⟩ := hpre
        rw [hs] at hrest
        simp only [List.cons_append] at hrest
        have hab : a = b := by
          injection hrest with h1 _
        rw [List.dropWhile_cons, ← hab, ha]
        simp
    have hder : stripChars (stripChars l) =
        (((stripChars l).dropWhile isPyWs).reverse.dropWhile isPyWs).reverse := rfl
    rw [hder, hdrop, hdrop_rev, List.reverse_reverse]

theorem mem_stripChars {c : Char} {l : List Char} (h : c ∈ stripChars l) : c ∈ l := by
  unfold stripChars at h
  have h1 := List.mem_reverse.mp h
  have h2 := (List.dropWhile_suffix isPyWs).sublist.subset h1
  have h3 := List.mem_reverse.mp h2
  exact (List.dropWhile_suffix isPyWs).sublist.subset h3

theorem map_toLower_fixed (l : List Char) (h : ∀ c ∈ l, c.toLower = c) :
    l.map Char.toLower = l := by
  have h2 : ∀ c ∈ l, Char.toLower c = id c := h
  rw [List.map_congr_left h2, List.map_id]

theorem normalizeKey_idem (q : String) :
    normalizeKey (normalizeKey q) = normalizeKey q := by
  have hfix : ∀ c ∈ stripChars (q.data.map Char.toLower), c.toLower = c := by
    intro c hc
    obtain ⟨c0, _, rfl⟩ := List.mem_map.mp (mem_stripChars hc)
    exact toLower_toLower c0
  refine congrArg String.mk ?_
  show stripChars ((stripChars (q.data.map Char.toLower)).map Char.toLower) =
    stripChars (q.data.map Char.toLower)
  rw [map_toLower_fixed _ hfix]
  exact stripChars_idem _

theorem normalizeKey_case_ws (q1 q2 : String) (w1 w2 : List Char)
    (hw : ∀ c ∈ w1 ++ w2, isPyWs c = true)
    (hcase : q1.data.map Char.toLower = q2.data.map Char.toLower) :
    normalizeKey ⟨w1 ++ q2.data ++ w2⟩ = normalizeKey q1 := by
  have hw1 : ∀ c ∈ w1, isPyWs c = true := fun c hc => hw c (List.mem_append_left w2 hc)
  have hw2 : ∀ c ∈ w2, isPyWs c = true := fun c hc => hw c (List.mem_append_right w1 hc)
  refine congrArg String.mk ?_
  show stripChars ((w1 ++ q2.data ++ w2).map Char.toLower) =
    stripChars (q1.data.map Char.toLower)
  rw [List.map_append, List.map_append]
  rw [map_toLower_fixed w1 (fun c hc => toLower_of_ws c (hw1 c hc)),
    map_toLower_fixed w2 (fun c hc => toLower_of_ws c (hw2 c hc))]
  rw [stripChars_ws_right _ w2 hw2, stripChars_ws_left w1 _ hw1, ← hcase]

/-! ## Helper lemmas about the cache and the pipeline -/

theorem cacheLookup_insert (c : Cache) (k : String) (v : List Document) :
    cacheLookup (cacheInsert c k v) k = some v := by
  simp [cacheLookup, cacheInsert]

theorem cacheLookup_mem {c : Cache} {k : String} {v : List Document}
    (h : cacheLookup c k = some v) : (k, v) ∈ c := by
  obtain ⟨l1, l2, heq, _⟩ := List.lookup_eq_some_iff.mp h
  rw [heq]
  exact List.mem_append_right l1 (List.mem_cons_self _ _)

theorem rerankedCandidates_nil (s : RetrievalSettings) (search : String → String → Bool)
    (q : String) : rerankedCandidates s search q [] = [] := by
  unfold rerankedCandidates candidateDocuments
  rcases inferTopicFromQuery search q with _ | t
  · rfl
  · simp [applyTopicBoosting]

theorem retrieve_hit (s : RetrievalSettings) (search : String → String → Bool)
    (backend : Backend) (cache : Cache) (q : String) (docs : List Document)
    (h : cacheLookup cache (normalizeKey q) = some docs) :
    retrieve s search backend cache q = ⟨Except.ok docs, cache, false⟩ := by
  simp only [retrieve]
  rw [h]

theorem retrieve_backend_error (s : RetrievalSettings) (search : String → String → Bool)
    (backend : Backend) (cache : Cache) (q : String) (e : String)
    (hmiss : cacheLookup cache (normalizeKey q) = none)
    (herr : backendResults backend q
      (s.RETRIEVAL_TOP_K * s.RETRIEVAL_CANDIDATE_MULTIPLIER) s.RETRIEVAL_THRESHOLD =
      Except.error e) :
    retrieve s search backend cache q =
      ⟨Except.error ("Retrieval failed: " ++ e), cache, true⟩ := by
  simp only [retrieve]
  rw [hmiss, herr]

theorem retrieve_backend_ok (s : RetrievalSettings) (search : String → String → Bool)
    (backend : Backend) (cache : Cache) (q : String) (rows : List SearchRow)
    (hmiss : cacheLookup cache (normalizeKey q) = none)
    (hok : backendResults backend q
      (s.RETRIEVAL_TOP_K * s.RETRIEVAL_CANDIDATE_MULTIPLIER) s.RETRIEVAL_THRESHOLD =
      Except.ok rows) :
    retrieve s search backend cache q =
      ⟨Except.ok ((rerankedCandidates s search q rows).take s.RETRIEVAL_TOP_K),
       cacheInsert cache (normalizeKey q)
         ((rerankedCandidates s search q rows).take s.RETRIEVAL_TOP_K),
       true⟩ := by
  simp only [retrieve]
  rw [hmiss, hok]

theorem retrieve_ok_lookup (s : RetrievalSettings) (search : String → String → Bool)
    (backend : Backend) (cache : Cache) (q : String) (docs : List Document)
    (h : (retrieve s search backend cache q).result = Except.ok docs) :
    cacheLookup (retrieve s search backend cache q).cache (normalizeKey q) =
      some docs := by
  rcases hc : cacheLookup cache (normalizeKey q) with _ | cached
  · rcases hb : backendResults backend q
      (s.RETRIEVAL_TOP_K * s.RETRIEVAL_CANDIDATE_MULTIPLIER) s.RETRIEVAL_THRESHOLD
      with e | rows
    · rw [retrieve_backend_error s search backend cache q e hc hb] at h
      exact absurd h (by simp)
    · rw [retrieve_backend_ok s search backend cache q rows hc hb] at h ⊢
      have h2 : (rerankedCandidates s search q rows).take s.RETRIEVAL_TOP_K = docs := by
        simpa using h
      show cacheLookup (cacheInsert cache (normalizeKey q)
        ((rerankedCandidates s search q rows).take s.RETRIEVAL_TOP_K)) (normalizeKey q) =
        some docs
      rw [cacheLookup_insert, h2]
  · rw [retrieve_hit s search backend cache q cached hc] at h ⊢
    have h2 : cached = docs := by
      simpa using h
    show cacheLookup cache (normalizeKey q) = some docs
    rw [hc, h2]

/-! ## Claim theorems: the retrieval pipeline -/

/-- C8: the cache key is the lowercased, whitespace-trimmed query; the
normalization is idempotent; a query differing from `q1` only by
character case (`q2`) and surrounding whitespace (`w1`, `w2`) yields the
same cache key; and after a successful `retrieve` of `q1`, a second call
with any such variant returns the cached result with no further
embedding/similarity-store call and an unchanged cache. -/
theorem cache_normalization_spec (s : RetrievalSettings) (search : String → String → Bool)
    (backend : Backend) (cache : Cache) (q1 q2 : String) (w1 w2 : List Char)
    (hw : ∀ c ∈ w1 ++ w2, isPyWs c = true)
    (hcase : q1.data.map Char.toLower = q2.data.map Char.toLower) :
    normalizeKey (normalizeKey q1) = normalizeKey q1 ∧
    normalizeKey ⟨w1 ++ q2.data ++ w2⟩ = normalizeKey q1 ∧
    (∀ docs, (retrieve s search backend cache q1).result = Except.ok docs →
      retrieve s search backend (retrieve s search backend cache q1).cache
          ⟨w1 ++ q2.data ++ w2⟩ =
        ⟨Except.ok docs, (retrieve s search backend cache q1).cache, false⟩) := by
  refine ⟨normalizeKey_idem q1, normalizeKey_case_ws q1 q2 w1 w2 hw hcase, ?_⟩
  intro docs hok
  have hkey : normalizeKey ⟨w1 ++ q2.data ++ w2⟩ = normalizeKey q1 :=
    normalizeKey_case_ws q1 q2 w1 w2 hw hcase
  have hlk := retrieve_ok_lookup s search backend cache q1 docs hok
  exact retrieve_hit s search backend (retrieve s search backend cache q1).cache
    ⟨w1 ++ q2.data ++ w2⟩ docs (by rw [hkey]; exact hlk)

theorem cache_normalization_spec_witness :
    retrieve testSettings (fun _ _ => false) emptyBackend
        (retrieve testSettings (fun _ _ => false) emptyBackend [] "Stress").cache
        "  stress  " =
      ⟨Except.ok [],
       (retrieve testSettings (fun _ _ => false) emptyBackend [] "Stress").cache,
       false⟩ := by
  exact (cache_normalization_spec testSettings (fun _ _ => false) emptyBackend []
    "Stress" "stress" [' ', ' '] [' ', ' '] (by decide) (by decide)).2.2 [] rfl

/-- C9: on a cache miss, `retrieve` raises a retrieval failure exactly
when the embedding/similarity-store step fails; on such a failure the
error carries the `Retrieval failed:` message and the cache is left
unchanged; an empty candidate set is not a failure: the call returns an
empty sequence and caches it under the normalized key. -/
theorem retrieve_failure_spec (s : RetrievalSettings) (search : String → String → Bool)
    (backend : Backend) (cache : Cache) (q : String)
    (hmiss : cacheLookup cache (normalizeKey q) = none) :
    ((∃ e, (retrieve s search backend cache q).result = Except.error e) ↔
      ∃ e, backendResults backend q
        (s.RETRIEVAL_TOP_K * s.RETRIEVAL_CANDIDATE_MULTIPLIER) s.RETRIEVAL_THRESHOLD =
        Except.error e) ∧
    (∀ e, backendResults backend q
        (s.RETRIEVAL_TOP_K * s.RETRIEVAL_CANDIDATE_MULTIPLIER) s.RETRIEVAL_THRESHOLD =
        Except.error e →
      (retrieve s search backend cache q).result =
        Except.error ("Retrieval failed: " ++ e) ∧
      (retrieve s search backend cache q).cache = cache) ∧
    (backendResults backend q
        (s.RETRIEVAL_TOP_K * s.RETRIEVAL_CANDIDATE_MULTIPLIER) s.RETRIEVAL_THRESHOLD =
        Except.ok [] →
      retrieve s search backend cache q =
        ⟨Except.ok [], cacheInsert cache (normalizeKey q) [], true⟩) := by
  rcases hb : backendResults backend q
    (s.RETRIEVAL_TOP_K * s.RETRIEVAL_CANDIDATE_MULTIPLIER) s.RETRIEVAL_THRESHOLD
    with e | rows
  · refine ⟨⟨fun _ => ⟨e, rfl⟩, fun _ => ⟨"Retrieval failed: " ++ e, ?_⟩⟩, ?_, ?_⟩
    · rw [retrieve_backend_error s search backend cache q e hmiss hb]
    · intro e2 he2
      have he3 : e = e2 := by
        injection he2
      subst he3
      rw [retrieve_backend_error s search backend cache q e hmiss hb]
      exact ⟨rfl, rfl⟩
    · intro h0
      exact absurd h0 (by simp)
  · constructor
    · constructor
      · rintro ⟨e, he⟩
        rw [retrieve_backend_ok s search backend cache q rows hmiss hb] at he
        exact absurd he (by simp)
      · rintro ⟨e, he⟩
        exact absurd he (by simp)
    constructor
    · intro e he
      exact absurd he (by simp)
    · intro h0
      have hrows : rows = [] := by
        simpa using h0
      subst hrows
      rw [retrieve_backend_ok s search backend cache q [] hmiss hb]
      rw [rerankedCandidates_nil, List.take_nil]

theorem retrieve_failure_spec_witness :
    ((retrieve testSettings (fun _ _ => false) failBackend [] "help").result =
      Except.error ("Retrieval failed: " ++ "boom") ∧
     (retrieve testSettings (fun _ _ => false) failBackend [] "help").cache = []) ∧
    retrieve testSettings (fun _ _ => false) emptyBackend [] "help" =
      ⟨Except.ok [], cacheInsert [] (normalizeKey "help") [], true⟩ := by
  constructor
  · exact (retrieve_failure_spec testSettings (fun _ _ => false) failBackend [] "help"
      rfl).2.1 "boom" rfl
  · exact (retrieve_failure_spec testSettings (fun _ _ => false) emptyBackend [] "help"
      rfl).2.2 rfl

/-- C7: `retrieve` returns at most `RETRIEVAL_TOP_K` documents (given
that every cached entry already satisfies that bound); on a cache miss
with a successful backend call the result is exactly the first
`RETRIEVAL_TOP_K` entries of the (possibly reranked) candidate
sequence; and when that sequence is sorted descending by score, every
returned document scores at least every truncated-away document. -/
theorem retrieve_topk_spec (s : RetrievalSettings) (search : String → String → Bool)
    (backend : Backend) (cache : Cache) (q : String)
    (hcache : ∀ kv ∈ cache, kv.2.length ≤ s.RETRIEVAL_TOP_K) :
    (∀ docs, (retrieve s search backend cache q).result = Except.ok docs →
      docs.length ≤ s.RETRIEVAL_TOP_K) ∧
    (∀ rows, cacheLookup cache (normalizeKey q) = none →
      backendResults backend q
        (s.RETRIEVAL_TOP_K * s.RETRIEVAL_CANDIDATE_MULTIPLIER) s.RETRIEVAL_THRESHOLD =
        Except.ok rows →
      (retrieve s search backend cache q).result =
        Except.ok ((rerankedCandidates s search q rows).take s.RETRIEVAL_TOP_K)) ∧
    (∀ rows, List.Sorted scoreDesc (rerankedCandidates s search q rows) →
      ∀ d ∈ (rerankedCandidates s search q rows).take s.RETRIEVAL_TOP_K,
        ∀ d2 ∈ (rerankedCandidates s search q rows).drop s.RETRIEVAL_TOP_K,
          d2.score ≤ d.score) := by
  refine ⟨?_, ?_, ?_⟩
  · intro docs h
    rcases hc : cacheLookup cache (normalizeKey q) with _ | cached
    · rcases hb : backendResults backend q
        (s.RETRIEVAL_TOP_K * s.RETRIEVAL_CANDIDATE_MULTIPLIER) s.RETRIEVAL_THRESHOLD
        with e | rows
      · rw [retrieve_backend_error s search backend cache q e hc hb] at h
        exact absurd h (by simp)
      · rw [retrieve_backend_ok s search backend cache q rows hc hb] at h
        have h2 : (rerankedCandidates s search q rows).take s.RETRIEVAL_TOP_K = docs := by
          simpa using h
        rw [← h2]
        exact List.length_take_le s.RETRIEVAL_TOP_K (rerankedCandidates s search q rows)
    · rw [retrieve_hit s search backend cache q cached hc] at h
      have h2 : cached = docs := by
        simpa using h
      rw [← h2]
      exact hcache (normalizeKey q, cached) (cacheLookup_mem hc)
  · intro rows hmiss hok
    rw [retrieve_backend_ok s search backend cache q rows hmiss hok]
  · intro rows hs d hd d2 hd2
    exact hs.rel_of_mem_take_of_mem_drop hd hd2

theorem retrieve_topk_spec_witness :
    ((retrieve testSettings (fun _ _ => false) nineBackend [] "nine").result =
      Except.ok ((rerankedCandidates testSettings (fun _ _ => false) "nine" nineRows).take
        testSettings.RETRIEVAL_TOP_K)) ∧
    ((rerankedCandidates testSettings (fun _ _ => false) "nine" nineRows).take
        testSettings.RETRIEVAL_TOP_K).length ≤ testSettings.RETRIEVAL_TOP_K ∧
    (∀ d ∈ (rerankedCandidates testSettings (fun _ _ => false) "nine" nineRows).take
        testSettings.RETRIEVAL_TOP_K,
      ∀ d2 ∈ (rerankedCandidates testSettings (fun _ _ => false) "nine" nineRows).drop
        testSettings.RETRIEVAL_TOP_K,
        d2.score ≤ d.score) := by
  have hcache : ∀ kv ∈ ([] : Cache), kv.2.length ≤ testSettings.RETRIEVAL_TOP_K :=
    fun kv hkv => absurd hkv (List.not_mem_nil kv)
  have hmain := retrieve_topk_spec testSettings (fun _ _ => false) nineBackend [] "nine" hcache
  have h1 := hmain.2.1 nineRows rfl rfl
  have hsort : List.Sorted scoreDesc
      (rerankedCandidates testSettings (fun _ _ => false) "nine" nineRows) := by
    have hinf : inferTopicFromQuery (fun _ _ => false) "nine" = none := rfl
    simp only [rerankedCandidates, hinf, candidateDocuments, rowToDoc, nineRows,
      List.map_cons, List.map_nil]
    norm_num [List.sorted_cons, scoreDesc]
  exact ⟨h1, hmain.1 _ h1, hmain.2.2 nineRows hsort⟩
